import Mathlib

/-!
# Verification development for `torusLang.c`

A shallow embedding of the core of `torusLang.c`: the Q4.4 fixed-point
codec (`encode8` / `decode8` / `add8`), the bytecode VM (`vm_step` /
`vm_run_line` / `vm_reset`), the DJB2 hash (`djb_hash`) and the
incremental per-line compiler (`jit_line`, tokenising via `jit_tok`),
together with the whole-corpus recompilation pass (`patch_vm`).

Machine integers are modelled as `Nat` / `Int` with explicit reduction
modulo powers of two where the C code relies on wrapping; the C `double`
is modelled as `ℚ`, which is exact on the inputs the theorems quantify
over (small multiples of 1/16, all exactly representable in a `double`).
-/

namespace Torus

/-- Reinterpretation of a byte as a signed 8-bit integer, i.e. the C cast
`(int8_t)p` applied to a `uint8_t` value (values are canonical mod 256). -/
def toInt8 (p : Nat) : Int :=
  if p % 256 < 128 then ((p % 256 : Nat) : Int) else ((p % 256 : Nat) : Int) - 256

/-- The C cast `(uint8_t)n` of a signed integer: reduction mod 256. -/
def toByte (n : Int) : Nat := (n % 256).toNat

/-- The C conversion to `int16_t`: wrap-around into [-32768, 32767]. -/
def toInt16 (n : Int) : Int := (n + 32768) % 65536 - 32768

/-- The C conversion from a real value to an integer type truncates toward
zero (C99 6.3.1.4): floor for nonnegative arguments, negated floor of the
negation otherwise. -/
def truncQ (q : ℚ) : Int := if 0 ≤ q then ⌊q⌋ else -⌊-q⌋

/-- The clamp `if(q>127) q=127; else if(q<-128) q=-128;` shared by
`encode8` and `add8` in torusLang.c. -/
def clamp8 (r : Int) : Int := if r > 127 then 127 else if r < -128 then -128 else r

/-- `encode8` from torusLang.c:
`int16_t q = (int16_t)(x*16.0 + 0.5); clamp to [-128,127]; return (uint8_t)(int8_t)q;`. -/
def encode8 (x : ℚ) : Nat :=
  toByte (clamp8 (toInt16 (truncQ (x * 16 + 1 / 2))))

/-- `decode8` from torusLang.c: `((int8_t)p)/16.0`. -/
def decode8 (p : Nat) : ℚ := ((toInt8 p : Int) : ℚ) / 16

/-- `add8` from torusLang.c: increments the ledger, adds the two operands
as widened signed integers, clamps to [-128,127], returns the byte.
The result pairs the returned byte with the updated ledger value. -/
def add8 (a b led : Nat) : Nat × Nat :=
  (toByte (clamp8 (toInt8 a + toInt8 b)), led + 1)

/-- Opcode `OP_POSIT_ADD = 0x01`. -/
def OP_POSIT_ADD : Nat := 0x01

/-- Opcode `OP_QUINE_MOMENT = 0x20`. -/
def OP_QUINE_MOMENT : Nat := 0x20

/-- Opcode `OP_HALT = 0xFF`. -/
def OP_HALT : Nat := 0xFF

/-- The VM state: the global `stack` array (indexed by `Nat`, holding
byte values), the stack pointer `sp`, and the global `ledger.landauer`
counter. -/
structure VM where
  stack : Nat → Nat
  sp : Nat
  ledger : Nat

/-- `vm_reset` from torusLang.c: `sp = 0`. -/
def vm_reset (v : VM) : VM := { v with sp := 0 }

/-- `vm_step` from torusLang.c: executes one opcode, returning the new
state and whether execution of the buffer continues (`false` on stack
underflow, `OP_HALT`, or an unrecognized opcode). -/
def vm_step (s : VM) (op : Nat) : VM × Bool :=
  if op = OP_POSIT_ADD then
    if s.sp < 2 then (s, false)
    else
      let r := add8 (s.stack (s.sp - 2)) (s.stack (s.sp - 1)) s.ledger
      ({ stack := fun i => if i = s.sp - 2 then r.1 else s.stack i,
         sp := s.sp - 1, ledger := r.2 }, true)
  else if op = OP_QUINE_MOMENT then
    ({ s with ledger := s.ledger + 1 }, true)
  else if op = OP_HALT then (s, false)
  else (s, false)

/-- `vm_run_line` from torusLang.c: run the opcodes left to right,
stopping at the first step that returns `false`. -/
def vm_run_line (bc : List Nat) (s : VM) : VM :=
  match bc with
  | [] => s
  | op :: rest =>
    let r := vm_step s op
    if r.2 then vm_run_line rest r.1 else r.1

/-- Instrumented variant of `vm_run_line` that additionally counts the
invocations of `add8` (which happen exactly when the opcode is
`OP_POSIT_ADD` and the stack holds at least two live values). -/
def vm_run_adds (bc : List Nat) (s : VM) (n : Nat) : VM × Nat :=
  match bc with
  | [] => (s, n)
  | op :: rest =>
    let r := vm_step s op
    let n1 := if op = OP_POSIT_ADD ∧ 2 ≤ s.sp then n + 1 else n
    if r.2 then vm_run_adds rest r.1 n1 else (r.1, n1)

/-- A line record of the arena (`line_t` in torusLang.c): the raw text
(as the list of characters before the NUL), the stored content hash, and
the compiled instruction buffer (its live bytes; `bc_len` is the length). -/
structure line_t where
  text : List Char
  hash : Nat
  bc : List Nat
deriving DecidableEq

/-- `djb_hash` from torusLang.c: `h = 5381; h = h*33 + byte` over all
bytes of the text, in 32-bit unsigned arithmetic. -/
def djb_hash (s : List Char) : Nat :=
  s.foldl (fun h c => (h * 33 + c.toNat) % 4294967296) 5381

/-- `emit_byte` from torusLang.c: append the byte only while the buffer
holds fewer than 128 bytes. -/
def emit_byte (bc : List Nat) (b : Nat) : List Nat :=
  if bc.length < 128 then bc ++ [b] else bc

/-- `skip_space` from torusLang.c: advance past spaces and tabs. -/
def skip_space : List Char → List Char
  | [] => []
  | c :: cs => if c = ' ' ∨ c = '\t' then skip_space cs else c :: cs

/-- `strncmp(p, kw, strlen(kw)) == 0`: the keyword is a leading segment
of `p` (if `p` ends first, its NUL terminator mismatches the keyword). -/
def isPre : List Char → List Char → Bool
  | [], _ => true
  | _ :: _, [] => false
  | k :: ks, c :: cs => if k = c then isPre ks cs else false

/-- Keyword `"add"`. -/
def addKw : List Char := ['a', 'd', 'd']

/-- Keyword `"quine"`. -/
def quineKw : List Char := ['q', 'u', 'i', 'n', 'e']

/-- The tokenizing loop of `jit_line`: while the text is nonempty, skip
spaces/tabs, emit `OP_POSIT_ADD` on keyword `add`, `OP_QUINE_MOMENT`
on keyword `quine`, and stop at the first unrecognized token.  The loop
is driven by a fuel argument for structural recursion; each iteration
consumes at least three characters, so fuel equal to the text length
(as supplied by `jit_tok`) never runs out before the loop exits. -/
def jit_loop : Nat → List Char → List Nat → List Nat
  | _, [], bc => bc
  | 0, _ :: _, bc => bc
  | fuel + 1, c :: cs, bc =>
    let q := skip_space (c :: cs)
    if isPre addKw q then jit_loop fuel (q.drop 3) (emit_byte bc OP_POSIT_ADD)
    else if isPre quineKw q then jit_loop fuel (q.drop 5) (emit_byte bc OP_QUINE_MOMENT)
    else bc

/-- Tokenization of a line text into an instruction buffer, starting
from the given buffer contents (the compiler starts from `[]`). -/
def jit_tok (p : List Char) (bc : List Nat) : List Nat := jit_loop p.length p bc

/-- `jit_line` from torusLang.c, instrumented with a flag recording
whether tokenization work was performed: compute the DJB2 hash of the
current text and store it; if it equals the previously stored hash,
return immediately (flag `false`); otherwise reset the buffer length to
zero and re-tokenize (flag `true`). -/
def jit_line_instr (L : line_t) : line_t × Bool :=
  let h := djb_hash L.text
  if h = L.hash then ({ L with hash := h }, false)
  else ({ text := L.text, hash := h, bc := jit_tok L.text [] }, true)

/-- `jit_line` from torusLang.c (the observable state change). -/
def jit_line (L : line_t) : line_t := (jit_line_instr L).1

/-- The whole program state relevant to `patch_vm`: the arena of line
records, the index of the highest populated slot, and the VM state. -/
structure sys_t where
  arena : Nat → line_t
  last_line : Nat
  vm : VM

/-- One step of the `patch_vm` loop: recompile slot `i` of the arena. -/
def jit_slot (a : Nat → line_t) (i : Nat) : Nat → line_t :=
  fun j => if j = i then jit_line (a j) else a j

/-- `patch_vm` from torusLang.c: `vm_reset()` followed by `jit_line(i)`
for every `i` from `0` up to and including `last_line`. -/
def patch_vm (s : sys_t) : sys_t :=
  { arena := (List.range (s.last_line + 1)).foldl jit_slot s.arena,
    last_line := s.last_line,
    vm := vm_reset s.vm }

/-! ## Basic facts about the byte casts and the clamp -/

theorem toInt8_lb (p : Nat) : -128 ≤ toInt8 p := by
  unfold toInt8; split <;> omega

theorem toInt8_ub (p : Nat) : toInt8 p ≤ 127 := by
  unfold toInt8; split <;> omega

theorem toInt8_toByte (r : Int) (h1 : -128 ≤ r) (h2 : r ≤ 127) :
    toInt8 (toByte r) = r := by
  unfold toInt8 toByte; split <;> omega

theorem clamp8_eq_max_min (r : Int) : clamp8 r = max (-128) (min 127 r) := by
  unfold clamp8; split_ifs <;> omega

theorem clamp8_lb (r : Int) : -128 ≤ clamp8 r := by
  rw [clamp8_eq_max_min]; omega

theorem clamp8_ub (r : Int) : clamp8 r ≤ 127 := by
  rw [clamp8_eq_max_min]; omega

/-! ## C1: encode/decode round trip -/

/-- C1 (counterexample). The claim asserts `decode8(encode8 x) = x` for
every integer multiple of 1/16 in [-8, 7.9375].  The value `x = -1/16`
is such a multiple, yet it fails: `x*16.0 + 0.5 = -0.5` truncates toward
zero to `0`, so the byte decodes to `0`, not `-1/16`.  (Adding 0.5 and
truncating rounds half-up only for nonnegative arguments.) -/
theorem C1_roundtrip_counterexample :
    ((-8 : ℚ) ≤ (-1 : ℚ) / 16 ∧ (-1 : ℚ) / 16 ≤ 7.9375
      ∧ (-1 : ℚ) / 16 = ((-1 : Int) : ℚ) / 16)
    ∧ decode8 (encode8 ((-1 : ℚ) / 16)) ≠ (-1 : ℚ) / 16 := by
  constructor
  · norm_num
  · norm_num [encode8, decode8, truncQ, toInt16, toByte, toInt8, clamp8]

/-- C1 (amended): for every multiple `k/16` of 1/16 with `0 ≤ k/16 ≤ 7.9375`
(i.e. `0 ≤ k ≤ 127`), `decode8 (encode8 (k/16)) = k/16` exactly.  For
negative multiples the round trip is off by +1/16 because the C cast
truncates toward zero (see the counterexample). -/
theorem C1_roundtrip_amended (k : Int) (h0 : 0 ≤ k) (h1 : k ≤ 127) :
    decode8 (encode8 ((k : ℚ) / 16)) = (k : ℚ) / 16 := by
  have hmul : ((k : ℚ) / 16) * 16 = (k : ℚ) := div_mul_cancel₀ _ (by norm_num)
  have hpos : (0 : ℚ) ≤ (k : ℚ) + 1 / 2 := by
    have : (0 : ℚ) ≤ (k : ℚ) := by exact_mod_cast h0
    linarith
  have hfl : ⌊(k : ℚ) + 1 / 2⌋ = k := by
    rw [add_comm, Int.floor_add_int]
    norm_num
  have htr : truncQ (((k : ℚ) / 16) * 16 + 1 / 2) = k := by
    rw [hmul, truncQ, if_pos hpos, hfl]
  have h16 : toInt16 k = k := by unfold toInt16; omega
  have hcl : clamp8 k = k := by rw [clamp8_eq_max_min]; omega
  unfold encode8 decode8
  rw [htr, h16, hcl, toInt8_toByte k (by omega) (by omega)]

theorem C1_roundtrip_witness :
    decode8 (encode8 (((3 : Int) : ℚ) / 16)) = ((3 : Int) : ℚ) / 16 :=
  C1_roundtrip_amended 3 (by decide) (by decide)

/-! ## C8: saturating addition -/

/-- C8: `add8 127 1` returns 127 and bumps the ledger by exactly one; in
general `add8` adds one to the ledger and its result byte, read back as a
signed 8-bit value, is the sum of the two operands (as signed 8-bit
values) clamped to [-128, 127]; and on a stack with at least two live
values, `vm_step` on `OP_POSIT_ADD` replaces the two topmost values by
the `add8` result (written at index `sp-2`), decrements `sp` by one, adds
one to the ledger, and continues. -/
theorem C8_saturating_add (a b led : Nat) (s : VM) (hsp : 2 ≤ s.sp) :
    add8 127 1 led = (127, led + 1)
    ∧ (add8 a b led).2 = led + 1
    ∧ toInt8 (add8 a b led).1 = max (-128) (min 127 (toInt8 a + toInt8 b))
    ∧ vm_step s OP_POSIT_ADD =
        ({ stack := fun i =>
             if i = s.sp - 2
             then (add8 (s.stack (s.sp - 2)) (s.stack (s.sp - 1)) s.ledger).1
             else s.stack i,
           sp := s.sp - 1,
           ledger := s.ledger + 1 }, true) := by
  have hb : toByte (clamp8 (toInt8 127 + toInt8 1)) = 127 := by decide
  refine ⟨by unfold add8; rw [hb], rfl, ?_, ?_⟩
  · unfold add8
    dsimp only
    rw [toInt8_toByte _ (clamp8_lb _) (clamp8_ub _), clamp8_eq_max_min]
  · unfold vm_step
    rw [if_pos rfl, if_neg (by omega)]
    rfl

theorem C8_saturating_add_witness : add8 127 1 0 = (127, 0 + 1) :=
  (C8_saturating_add 127 1 0 ⟨fun _ => 0, 2, 0⟩ (by decide)).1

/-! ## VM execution lemmas -/

theorem vm_step_sp_le (s : VM) (op : Nat) : (vm_step s op).1.sp ≤ s.sp := by
  unfold vm_step
  split_ifs <;> dsimp <;> omega

theorem vm_step_sp_pos (s : VM) (op : Nat) (h : 0 < s.sp) :
    0 < (vm_step s op).1.sp := by
  unfold vm_step
  split_ifs <;> dsimp <;> omega

theorem vm_run_sp_le (bc : List Nat) : ∀ s : VM, (vm_run_line bc s).sp ≤ s.sp := by
  induction bc with
  | nil => intro s; simp [vm_run_line]
  | cons op rest ih =>
    intro s
    simp only [vm_run_line]
    split
    · exact le_trans (ih _) (vm_step_sp_le s op)
    · exact vm_step_sp_le s op

theorem vm_run_sp_pos (bc : List Nat) : ∀ s : VM, 0 < s.sp → 0 < (vm_run_line bc s).sp := by
  induction bc with
  | nil => intro s h; simpa [vm_run_line] using h
  | cons op rest ih =>
    intro s h
    simp only [vm_run_line]
    split
    · exact ih _ (vm_step_sp_pos s op h)
    · exact vm_step_sp_pos s op h

theorem vm_run_from_empty (bc : List Nat) :
    ∀ (s : VM) (n : Nat), s.sp = 0 →
      (vm_run_line bc s).sp = 0 ∧ (vm_run_line bc s).stack = s.stack
      ∧ (vm_run_adds bc s n).2 = n := by
  induction bc with
  | nil => intro s n h; exact ⟨h, rfl, rfl⟩
  | cons op rest ih =>
    intro s n h
    by_cases h1 : op = OP_POSIT_ADD
    · subst h1
      have hstep : vm_step s OP_POSIT_ADD = (s, false) := by
        unfold vm_step; rw [if_pos rfl, if_pos (by omega)]
      refine ⟨?_, ?_, ?_⟩ <;>
        simp [vm_run_line, vm_run_adds, hstep, h]
    · by_cases h2 : op = OP_QUINE_MOMENT
      · subst h2
        have hstep : vm_step s OP_QUINE_MOMENT = ({ s with ledger := s.ledger + 1 }, true) := by
          unfold vm_step
          rw [if_neg (by decide), if_pos rfl]
        rw [h] at hstep
        have ihx := ih { stack := s.stack, sp := 0, ledger := s.ledger + 1 } n rfl
        refine ⟨?_, ?_, ?_⟩ <;>
          simp [vm_run_line, vm_run_adds, hstep, h, h1, ihx.1, ihx.2.1, ihx.2.2]
      · have hstep : vm_step s op = (s, false) := by
          unfold vm_step
          rw [if_neg h1, if_neg h2]
          split <;> rfl
        refine ⟨?_, ?_, ?_⟩ <;>
          simp [vm_run_line, vm_run_adds, hstep, h, h1]

/-- Companion fact tying the instrumented runner to `vm_run_line`. -/
theorem vm_run_adds_fst (bc : List Nat) :
    ∀ (s : VM) (n : Nat), (vm_run_adds bc s n).1 = vm_run_line bc s := by
  induction bc with
  | nil => intro s n; rfl
  | cons op rest ih =>
    intro s n
    simp only [vm_run_adds, vm_run_line]
    split <;> simp [ih]

/-! ## C4: no instruction grows the stack -/

/-- C4: for every instruction buffer and start state the stack pointer
after `vm_run_line` is at most the stack pointer before; starting from
the empty stack (`sp = 0`) the stack pointer stays 0, the stack contents
are untouched, and `add8` is never invoked (the instrumented count of
`add8` invocations stays 0), i.e. every `OP_POSIT_ADD` hits the
underflow abort. -/
theorem C4_no_stack_growth (bc : List Nat) (s : VM) :
    (vm_run_line bc s).sp ≤ s.sp
    ∧ (vm_run_line bc { s with sp := 0 }).sp = 0
    ∧ (vm_run_line bc { s with sp := 0 }).stack = s.stack
    ∧ (vm_run_adds bc { s with sp := 0 } 0).2 = 0 := by
  have h := vm_run_from_empty bc { s with sp := 0 } 0 rfl
  exact ⟨vm_run_sp_le bc s, h.1, h.2.1, h.2.2⟩

/-! ## C6: underflow abort is a silent no-op -/

/-- C6: executing `OP_POSIT_ADD` against an empty stack leaves the
entire VM state (stack contents, stack pointer, ledger) unchanged, the
step reports "do not continue" (no error is surfaced — the step result
is just the unchanged state), and the remainder of the instruction
buffer is aborted. -/
theorem C6_underflow_abort (s : VM) (rest : List Nat) (h : s.sp = 0) :
    vm_step s OP_POSIT_ADD = (s, false)
    ∧ vm_run_line (OP_POSIT_ADD :: rest) s = s := by
  have h1 : vm_step s OP_POSIT_ADD = (s, false) := by
    unfold vm_step; rw [if_pos rfl, if_pos (by omega)]
  exact ⟨h1, by simp [vm_run_line, h1]⟩

theorem C6_underflow_abort_witness :
    vm_step ⟨fun _ => 0, 0, 0⟩ OP_POSIT_ADD = (⟨fun _ => 0, 0, 0⟩, false)
    ∧ vm_run_line (OP_POSIT_ADD :: [OP_QUINE_MOMENT]) ⟨fun _ => 0, 0, 0⟩
      = ⟨fun _ => 0, 0, 0⟩ :=
  C6_underflow_abort ⟨fun _ => 0, 0, 0⟩ [OP_QUINE_MOMENT] rfl

/-! ## C10: HALT / unknown opcodes have no state effect -/

/-- C10: `OP_HALT` and every opcode other than `OP_POSIT_ADD` and
`OP_QUINE_MOMENT` stops execution of the buffer while leaving the stack
contents, stack pointer and ledger entirely unchanged: the aborting step
has no state effect of any kind. -/
theorem C10_halt_frame (s : VM) (op : Nat) (rest : List Nat)
    (h1 : op ≠ OP_POSIT_ADD) (h2 : op ≠ OP_QUINE_MOMENT) :
    vm_step s op = (s, false) ∧ vm_run_line (op :: rest) s = s := by
  have hs : vm_step s op = (s, false) := by
    unfold vm_step
    rw [if_neg h1, if_neg h2]
    split <;> rfl
  exact ⟨hs, by simp [vm_run_line, hs]⟩

theorem C10_halt_frame_witness :
    vm_step ⟨fun _ => 0, 5, 7⟩ OP_HALT = (⟨fun _ => 0, 5, 7⟩, false)
    ∧ vm_run_line (OP_HALT :: [OP_POSIT_ADD]) ⟨fun _ => 0, 5, 7⟩ = ⟨fun _ => 0, 5, 7⟩ :=
  C10_halt_frame ⟨fun _ => 0, 5, 7⟩ OP_HALT [OP_POSIT_ADD] (by decide) (by decide)

/-! ## JIT lemmas -/

theorem skip_space_length (p : List Char) : (skip_space p).length ≤ p.length := by
  induction p with
  | nil => simp [skip_space]
  | cons c cs ih =>
    simp only [skip_space]
    split
    · exact le_trans ih (by simp)
    · simp

theorem isPre_length (ks : List Char) : ∀ p : List Char, isPre ks p = true → ks.length ≤ p.length := by
  induction ks with
  | nil => intro p _; simp
  | cons k ks ih =>
    intro p h
    cases p with
    | nil => simp [isPre] at h
    | cons c cs =>
      simp only [isPre] at h
      split at h
      · simpa using ih cs h
      · exact absurd h (by simp)

theorem emit_byte_length_le (bc : List Nat) (b : Nat) (h : bc.length ≤ 128) :
    (emit_byte bc b).length ≤ 128 := by
  unfold emit_byte
  split
  · simp; omega
  · exact h

theorem jit_loop_length_le (f : Nat) :
    ∀ (p : List Char) (bc : List Nat), bc.length ≤ 128 → (jit_loop f p bc).length ≤ 128 := by
  induction f with
  | zero => intro p bc h; cases p <;> simpa [jit_loop] using h
  | succ n ih =>
    intro p bc h
    cases p with
    | nil => simpa [jit_loop] using h
    | cons c cs =>
      simp only [jit_loop]
      split
      · exact ih _ _ (emit_byte_length_le _ _ h)
      · split
        · exact ih _ _ (emit_byte_length_le _ _ h)
        · exact h

theorem jit_line_text (L : line_t) : (jit_line L).text = L.text := by
  simp only [jit_line, jit_line_instr]
  split <;> rfl

theorem jit_line_hash (L : line_t) : (jit_line L).hash = djb_hash L.text := by
  simp only [jit_line, jit_line_instr]
  split <;> rfl

/-! ## C9: the instruction buffer never exceeds its 128-byte capacity -/

/-- C9: `emit_byte` appends only while the buffer is not full, so for
every line record whose buffer respects the capacity, recompiling keeps
`code_len ≤ 128`, and tokenizing any text from an empty buffer stays
within 128 bytes. -/
theorem C9_code_len_bound (L : line_t) (t : List Char) (h : L.bc.length ≤ 128) :
    (jit_line L).bc.length ≤ 128 ∧ (jit_tok t []).length ≤ 128 := by
  constructor
  · simp only [jit_line, jit_line_instr]
    split
    · exact h
    · exact jit_loop_length_le _ _ _ (by simp)
  · exact jit_loop_length_le _ _ _ (by simp)

theorem C9_code_len_bound_witness :
    (jit_line { text := "add".toList, hash := 0, bc := [] }).bc.length ≤ 128
    ∧ (jit_tok ("quine".toList) []).length ≤ 128 :=
  C9_code_len_bound { text := "add".toList, hash := 0, bc := [] } ("quine".toList) (by decide)

/-! ## C2: tokenization of "addx" -/

/-- C2 (counterexample). The claim asserts that compiling the line text
`"addx"` yields the empty instruction buffer.  It does not: compiling a
stale record holding `"addx"` produces a nonempty buffer, because
`strncmp(p, "add", 3)` matches the leading `"add"` of `"addx"`. -/
theorem C2_addx_counterexample :
    (jit_line { text := "addx".toList, hash := 0, bc := [] }).bc.length ≠ 0 := by
  decide

/-- C2 (amended): compiling the line text `"addx"` produces the
one-instruction buffer `[OP_POSIT_ADD]` (`code_len = 1`): the tokenizer
does match the keyword `"add"` as a literal prefix of `"addx"` and then
halts on the unrecognized remainder `"x"`. -/
theorem C2_addx_amended :
    jit_tok ("addx".toList) [] = [OP_POSIT_ADD]
    ∧ jit_line { text := "addx".toList, hash := 0, bc := [] }
      = { text := "addx".toList, hash := djb_hash ("addx".toList), bc := [OP_POSIT_ADD] } := by
  decide

/-! ## C3: cache invalidation on text change -/

/-- C3 (counterexample). The claim quantifies over every new text that
differs from the line's current text, but `jit_line` is gated on the
DJB2 hash, not on the text: `djb_hash "add" = djb_hash "bCd"` (a DJB2
collision), so a record that held `"bCd"` (which compiles to `[]`) and
then has its text changed to `"add"` is *not* rebuilt — its buffer stays
`[]` although a from-scratch compile of `"add"` yields `[OP_POSIT_ADD]`. -/
theorem C3_invalidation_counterexample :
    "add".toList ≠ "bCd".toList
    ∧ djb_hash ("add".toList) = djb_hash ("bCd".toList)
    ∧ jit_tok ("bCd".toList) [] = []
    ∧ jit_tok ("add".toList) [] = [OP_POSIT_ADD]
    ∧ (jit_line { text := "add".toList, hash := djb_hash ("bCd".toList), bc := [] }).bc
      ≠ jit_tok ("add".toList) [] := by
  decide

/-- C3 (amended): for every line record whose current text hashes
differently from the stored hash (in particular after any text change
that is not a DJB2 collision), `jit_line` stores the new hash and
rebuilds the instruction buffer from scratch from the new text alone:
the result is exactly the record with the new hash and the buffer
re-tokenized starting from the empty buffer, the old contents discarded. -/
theorem C3_invalidation_amended (L : line_t) (h : djb_hash L.text ≠ L.hash) :
    jit_line L = { text := L.text, hash := djb_hash L.text, bc := jit_tok L.text [] } := by
  simp only [jit_line, jit_line_instr]
  rw [if_neg h]

theorem C3_invalidation_amended_witness :
    jit_line { text := "add".toList, hash := 0, bc := [7] }
      = { text := "add".toList, hash := djb_hash ("add".toList), bc := jit_tok ("add".toList) [] } :=
  C3_invalidation_amended { text := "add".toList, hash := 0, bc := [7] } (by decide)

/-! ## C5: cache hit skips recompilation -/

/-- C5: after any `jit_line` call the stored hash equals the hash of the
text, so calling `jit_line` again on the unchanged record returns the
record byte-identical (same text, hash, buffer and buffer length) and
the instrumentation flag is `false`: the second call takes the
hash-equality early return and performs no tokenization work. -/
theorem C5_cache_hit (L : line_t) :
    jit_line_instr (jit_line L) = (jit_line L, false) := by
  have ht := jit_line_text L
  have hh := jit_line_hash L
  unfold jit_line_instr
  rw [ht, if_pos hh.symm]
  have hx : ({ text := L.text, hash := djb_hash L.text, bc := (jit_line L).bc } : line_t)
      = jit_line L := by
    rw [← hh, ← ht]
  rw [hx]

/-! ## C7: whole-corpus recompilation and the stack-pointer reset -/

theorem range_foldl_jit (n : Nat) :
    ∀ a : Nat → line_t,
      (List.range n).foldl jit_slot a = fun i => if i < n then jit_line (a i) else a i := by
  induction n with
  | zero => intro a; funext i; simp
  | succ m ih =>
    intro a
    rw [List.range_succ, List.foldl_append, ih]
    funext i
    simp only [List.foldl_cons, List.foldl_nil, jit_slot]
    by_cases h : i = m
    · subst h
      simp [Nat.lt_irrefl, Nat.lt_succ_iff]
    · by_cases h2 : i < m
      · simp [h, h2, Nat.lt_succ_of_lt h2]
      · have h3 : ¬ i < m + 1 := by omega
        simp [h, h2, h3]

/-- C7: `patch_vm` resets the VM stack pointer to zero (leaving stack
contents and ledger untouched) and performs the per-line hash-gated
`jit_line` on every populated slot `0..last_line`, in increasing index
order (the fold over `List.range`), leaving higher slots untouched;
and it is the only reset point: VM execution itself can never zero a
nonzero stack pointer (for any buffer and any start state with a
positive stack pointer, the pointer stays positive), and compilation
never touches the VM state at all. -/
theorem C7_patch_vm_reset (s : sys_t) (bc : List Nat) (v : VM) :
    patch_vm s = { arena := fun i => if i ≤ s.last_line then jit_line (s.arena i) else s.arena i,
                   last_line := s.last_line,
                   vm := { s.vm with sp := 0 } }
    ∧ 0 < (vm_run_line bc { v with sp := v.sp + 1 }).sp := by
  constructor
  · unfold patch_vm vm_reset
    congr 1
    rw [range_foldl_jit]
    funext i
    by_cases h : i ≤ s.last_line
    · simp [h, Nat.lt_succ_iff]
    · simp [h, Nat.lt_succ_iff]
  · exact vm_run_sp_pos bc _ (Nat.succ_pos v.sp)

end Torus
